import Mathlib

/-!
Verification of the Fleet Helm chart retention scripts.

The development embeds, from `.github/scripts/manage-fleet-charts.py`:
  * the dev-version classification (`DEV_VERSION_PATTERN.search`),
  * `extract_base_version` and the base computation
    `extract_base_version(version.split('-')[0])` used by the engine,
  * the retention engine `get_versions_to_keep`,
  * the catalog construction and reconciliation of `sync_releases` and
    `cleanup_old_versions`,
and, from `.github/scripts/remove-rcs-from-index.py`, the per-chart
retention loop, so that the two rules can be compared.

Timestamps are modelled as integers (the scripts only compare them and
subtract constant offsets); catalogs are association lists from version
string to timestamp, built with Python-dict semantics (first occurrence
keeps its place, later bindings overwrite the value).
-/

namespace Fleet

/-- Does the character list `p` start the character list `s`? -/
def startsWith : List Char → List Char → Bool
  | [], _ => true
  | _ :: _, [] => false
  | p :: ps, c :: cs => p = c && startsWith ps cs

/-- Does the character list `p` occur contiguously inside `s`?
This is `re.search` for a constant pattern. -/
def containsSeq (p : List Char) : List Char → Bool
  | [] => p.isEmpty
  | c :: cs => startsWith p (c :: cs) || containsSeq p cs

/-- `DEV_VERSION_PATTERN = re.compile(r"(rc|beta|alpha)")` applied to a
string: one of the three markers occurs somewhere in it. -/
def isDevStr (v : String) : Bool :=
  containsSeq (['r', 'c']) v.data ||
  containsSeq (['b', 'e', 't', 'a']) v.data ||
  containsSeq (['a', 'l', 'p', 'h', 'a']) v.data

/-- The maximal leading digit run and the rest (`\d+` at the head). -/
def takeDigits (cs : List Char) : List Char × List Char :=
  (cs.takeWhile Char.isDigit, cs.dropWhile Char.isDigit)

/-- The match of the regex `^(\d+\.\d+\.\d+)` on a character list:
`some` of the matched characters, or `none` when the head is not of
that shape. -/
def baseMatch (cs : List Char) : Option (List Char) :=
  let p1 := takeDigits cs
  if p1.1 = [] then none else
  match p1.2 with
  | '.' :: r1 =>
    let p2 := takeDigits r1
    if p2.1 = [] then none else
    match p2.2 with
    | '.' :: r2 =>
      let p3 := takeDigits r2
      if p3.1 = [] then none
      else some (p1.1 ++ '.' :: p2.1 ++ '.' :: p3.1)
    | _ => none
  | _ => none

/-- `extract_base_version`: the three-component numeric head of the
string when the regex matches, the whole string otherwise. -/
def extract_base_version (v : String) : String :=
  match baseMatch v.data with
  | some p => String.mk p
  | none => v

/-- `version.split('-')[0]`: the portion before the first '-'
(the whole string when no '-' occurs). -/
def firstDashSeg (v : String) : String :=
  String.mk (v.data.takeWhile (fun c => c ≠ '-'))

/-- The base a version is given inside `get_versions_to_keep`:
`extract_base_version(version.split('-')[0])`. -/
def engineBase (v : String) : String :=
  extract_base_version (firstDashSeg v)

/-- A catalog: the `all_versions` dict, version string to publication
timestamp. -/
abbrev Catalog := List (String × Int)

/-- The keys of a catalog. -/
def keysOf (cat : Catalog) : List String := cat.map Prod.fst

/-- `stable_versions`: keys without a dev marker. -/
def stableVersions (cat : Catalog) : List String :=
  (cat.filter (fun p => !isDevStr p.1)).map Prod.fst

/-- The dev entries of the catalog (key has a dev marker). -/
def devEntries (cat : Catalog) : Catalog :=
  cat.filter (fun p => isDevStr p.1)

/-- `stable_bases`: bases of the stable versions. -/
def stableBases (cat : Catalog) : List String :=
  (stableVersions cat).map engineBase

/-- Ordering used for `sorted(dev_versions, key=..., reverse=True)`:
newest first. -/
def tsGE (a b : String × Int) : Prop := b.2 ≤ a.2

instance : DecidableRel tsGE := fun a b => inferInstanceAs (Decidable (b.2 ≤ a.2))

instance : IsTotal (String × Int) tsGE := ⟨fun a b => le_total b.2 a.2⟩

instance : IsTrans (String × Int) tsGE := ⟨fun _ _ _ h1 h2 => le_trans h2 h1⟩

/-- `dev_sorted`: the dev entries, newest first. -/
def devSorted (cat : Catalog) : Catalog :=
  List.insertionSort tsGE (devEntries cat)

/-- The loop of `get_versions_to_keep` over the sorted dev entries,
threading `dev_bases_seen`.  `is_old = published < CUTOFF_DATE`; a
recent entry is always kept; an old one only when its base is in
neither `stable_bases` nor `dev_bases_seen`. -/
def devWalk (cutoff : Int) (sb : List String) : Catalog → List String → List String
  | [], _ => []
  | (v, ts) :: rest, seen =>
    if ts < cutoff then
      if engineBase v ∉ sb ∧ engineBase v ∉ seen then
        v :: devWalk cutoff sb rest (engineBase v :: seen)
      else
        devWalk cutoff sb rest seen
    else
      v :: devWalk cutoff sb rest (engineBase v :: seen)

/-- `get_versions_to_keep(all_versions)`: stable versions plus the dev
versions retained by the walk. -/
def get_versions_to_keep (cat : Catalog) (cutoff : Int) : List String :=
  stableVersions cat ++ devWalk cutoff (stableBases cat) (devSorted cat) []

/-- An entry of `index.yaml`: the fields the scripts read. -/
structure Entry where
  version : String
  appVersion : String
  created : Int
deriving DecidableEq

/-- `is_dev_version(version_dict)`: the marker search over
`version + appVersion`. -/
def is_dev_version (e : Entry) : Bool :=
  isDevStr (e.version ++ e.appVersion)

/-- Insertion into a Python dict rendered as an association list:
overwrite in place when the key exists, append otherwise. -/
def dictInsert : Catalog → String → Int → Catalog
  | [], k, t => [(k, t)]
  | (k', t') :: m, k, t =>
    if k' = k then (k', t) :: m else (k', t') :: dictInsert m k t

/-- `version_dates = {v.get('version'): parse_created_date(v) for v in versions}`. -/
def catalogOf (es : List Entry) : Catalog :=
  es.foldl (fun m e => dictInsert m e.version e.created) []

/-- The keep set `cleanup_old_versions` computes for one chart. -/
def cleanupKeep (es : List Entry) (cutoff : Int) : List String :=
  get_versions_to_keep (catalogOf es) cutoff

/-- `kept_versions = [v for v in versions if v.get('version') in versions_to_keep]`. -/
def keptEntries (es : List Entry) (cutoff : Int) : List Entry :=
  es.filter (fun e => decide (e.version ∈ cleanupKeep es cutoff))

/-- The versions `cleanup_old_versions` records as removed for one chart:
entries not in `kept_versions`, by entry equality, as in the source. -/
def removedVersions (es : List Entry) (cutoff : Int) : List String :=
  (es.filter (fun e => decide (e ∉ keptEntries es cutoff))).map (fun e => e.version)

/-- The `combined` dict of `sync_releases`: the feed, then every
existing-index version absent from it bound to
`CUTOFF_DATE - timedelta(days=365)`. -/
def syncCombined (feed : Catalog) (existing : List String) (cutoff : Int) : Catalog :=
  existing.foldl
    (fun m v => if v ∈ keysOf m then m else m ++ [(v, cutoff - 365)]) feed

/-- The versions of the `missing` list of `sync_releases`: kept versions
that are in the feed and not yet in the index. -/
def syncMissing (feed : Catalog) (existing : List String) (cutoff : Int) : List String :=
  (get_versions_to_keep (syncCombined feed existing cutoff) cutoff).filter
    (fun v => decide (v ∈ keysOf feed ∧ v ∉ existing))

/-- The `added` counter of the download loop of `sync_releases`: one per
version of `missing` whose chart downloads all succeed. -/
def addedCount (missing : List String) (ok : String → Bool) : Nat :=
  missing.foldl (fun n v => if ok v then n + 1 else n) 0

/-- The versions actually added in the run: those of `missing` whose
downloads succeeded. -/
def actuallyAdded (missing : List String) (ok : String → Bool) : List String :=
  missing.filter ok

/-- The content of `synced_versions.txt`: written only when
`added > 0`, and then it lists `missing[:added]`. -/
def syncedFileContent (missing : List String) (ok : String → Bool) :
    Option (List String) :=
  if 0 < addedCount missing ok then some (missing.take (addedCount missing ok))
  else none

/-- `is_old(version, cutoff_date)` of `remove-rcs-from-index.py`. -/
def rcIsOld (e : Entry) (cutoff : Int) : Bool := e.created < cutoff

/-- `max(old_dev, key=parse_created_date)`: the first entry of maximal
`created` (Python's `max` keeps the earliest maximal element). -/
def maxByCreated (x : Entry) (xs : List Entry) : Entry :=
  xs.foldl (fun acc v => if acc.created < v.created then v else acc) x

/-- The per-chart retention loop of `remove-rcs-from-index.py`:
when a final version exists, a dev entry survives only if its base has
no final version and it is recent; otherwise the recent dev entries
survive together with the newest old dev entry, if any. -/
def rcKeptVersions (es : List Entry) (cutoff : Int) : List Entry :=
  let finals := es.filter (fun v => !is_dev_version v)
  let devs := es.filter (fun v => is_dev_version v)
  if finals.isEmpty then
    let recentDev := devs.filter (fun v => !rcIsOld v cutoff)
    let oldDev := devs.filter (fun v => rcIsOld v cutoff)
    match oldDev with
    | [] => recentDev
    | o :: os =>
      es.filter (fun v => decide (v ∈ recentDev ∨ v = maxByCreated o os))
  else
    let finalBases := finals.map (fun v => extract_base_version v.version)
    es.filter (fun v =>
      !is_dev_version v ||
      decide (extract_base_version v.version ∉ finalBases ∧ !rcIsOld v cutoff))

/-! ### Concrete data used by witnesses and counterexamples -/

/-- Two old dev versions of one base, no stable version. -/
def catTwoOldDev : Catalog := [("1.0.0-rc1", 10), ("1.0.0-rc2", 0)]

/-- A stable version next to an old dev version of the same base. -/
def catStableOldDev : Catalog := [("1.2.3", 100), ("1.2.3-rc1", 0)]

/-- A single old stable version. -/
def catOneStable : Catalog := [("1.2.3", 0)]

/-- A recent dev version next to a stable one. -/
def catMixed : Catalog := [("1.4.0-rc1", 60), ("2.0.0", 100)]

/-- Stable, pruned old dev, and recent dev: exercises every branch of
the retention walk. -/
def catThree : Catalog := [("1.0.0", 100), ("1.0.0-rc1", 0), ("1.1.0-rc1", 60)]

/-- A stable entry. -/
def entryStable : Entry := ⟨"1.2.3", "", 0⟩

/-- An entry whose dev marker sits only in `appVersion`. -/
def entryHiddenDev : Entry := ⟨"1.2.3.4", "9.9.9-rc1", 0⟩

/-- A chart with a stable release and an old dev release of another base. -/
def entriesTwoCharts : List Entry := [⟨"2.0.0", "", 100⟩, ⟨"1.3.0-rc1", "", 0⟩]

/-- Entries for the cleanup reconciliation witness. -/
def entriesCleanup : List Entry := [⟨"1.2.3", "", 0⟩, ⟨"1.2.3-rc1", "", 0⟩]

/-- A feed with a stable and a recent dev release. -/
def feedTwo : Catalog := [("1.6.0", 90), ("1.6.0-rc1", 80)]

/-- Versions failing and succeeding in the download loop model. -/
def missingTwo : List String := ["2.1.0", "2.2.0"]

/-- Download outcome: the first version of `missingTwo` fails, the
second succeeds. -/
def okSecond (v : String) : Bool := v == "2.2.0"

/-- A version string with no numeric base. -/
def oddVer1 : String := "foo-rc1"

/-- A second version string with no numeric base and the same portion
before the '-'. -/
def oddVer2 : String := "foo-rc2"

/-- The shared portion before the '-'. -/
def oddStem : String := "foo"

/-- A chart holding `entryStable` and `entryHiddenDev`. -/
def entriesHidden : List Entry := [entryStable, entryHiddenDev]

/-- Two old dev versions with no numeric base but equal pre-'-' stems. -/
def catOdd : Catalog := [(oddVer1, 10), (oddVer2, 0)]

/-! ### Basic membership lemmas -/

theorem mem_keysOf {cat : Catalog} {v : String} :
    v ∈ keysOf cat ↔ ∃ ts, (v, ts) ∈ cat := by
  constructor
  · intro h
    rcases List.mem_map.1 h with ⟨⟨a, b⟩, hm, he⟩
    exact ⟨b, by simpa [← he] using hm⟩
  · rintro ⟨ts, h⟩
    exact List.mem_map.2 ⟨(v, ts), h, rfl⟩

theorem mem_stableVersions {cat : Catalog} {v : String} :
    v ∈ stableVersions cat ↔ ∃ ts, (v, ts) ∈ cat ∧ isDevStr v = false := by
  constructor
  · intro h
    rcases List.mem_map.1 h with ⟨⟨a, b⟩, hm, he⟩
    rcases List.mem_filter.1 hm with ⟨hc, hd⟩
    subst he
    exact ⟨b, hc, by simpa using hd⟩
  · rintro ⟨ts, hc, hd⟩
    exact List.mem_map.2 ⟨(v, ts), List.mem_filter.2 ⟨hc, by simpa using hd⟩, rfl⟩

theorem mem_devEntries {cat : Catalog} {v : String} {ts : Int} :
    (v, ts) ∈ devEntries cat ↔ (v, ts) ∈ cat ∧ isDevStr v = true := by
  simp [devEntries, List.mem_filter]

theorem mem_devSorted {cat : Catalog} {v : String} {ts : Int} :
    (v, ts) ∈ devSorted cat ↔ (v, ts) ∈ cat ∧ isDevStr v = true := by
  rw [devSorted, List.mem_insertionSort, mem_devEntries]

theorem sorted_devSorted (cat : Catalog) : List.Sorted tsGE (devSorted cat) :=
  List.sorted_insertionSort tsGE (devEntries cat)

theorem keys_pin :
    ∀ {cat : Catalog}, (keysOf cat).Nodup →
      ∀ {v : String} {t1 t2 : Int}, (v, t1) ∈ cat → (v, t2) ∈ cat → t1 = t2 := by
  intro cat
  induction cat with
  | nil => intro _ v t1 t2 h; simp at h
  | cons p rest ih =>
    obtain ⟨a, b⟩ := p
    intro hnd v t1 t2 h1 h2
    rw [keysOf, List.map_cons, List.nodup_cons] at hnd
    rcases List.mem_cons.1 h1 with h1 | h1 <;> rcases List.mem_cons.1 h2 with h2 | h2
    · rw [Prod.mk.injEq] at h1 h2
      rw [h1.2, h2.2]
    · exfalso
      apply hnd.1
      rw [Prod.mk.injEq] at h1
      have hm : v ∈ List.map Prod.fst rest := List.mem_map.2 ⟨(v, t2), h2, rfl⟩
      rw [h1.1] at hm
      exact hm
    · exfalso
      apply hnd.1
      rw [Prod.mk.injEq] at h2
      have hm : v ∈ List.map Prod.fst rest := List.mem_map.2 ⟨(v, t1), h1, rfl⟩
      rw [h2.1] at hm
      exact hm
    · exact ih hnd.2 h1 h2

theorem nodup_keys_devEntries {cat : Catalog} (h : (keysOf cat).Nodup) :
    (keysOf (devEntries cat)).Nodup :=
  List.Nodup.sublist (List.Sublist.map Prod.fst (List.filter_sublist cat)) h

theorem nodup_keys_devSorted {cat : Catalog} (h : (keysOf cat).Nodup) :
    (keysOf (devSorted cat)).Nodup := by
  have hperm : List.Perm (devSorted cat) (devEntries cat) :=
    List.perm_insertionSort tsGE (devEntries cat)
  exact ((hperm.map Prod.fst).nodup_iff).2 (nodup_keys_devEntries h)

/-! ### Lemmas about the dev walk -/

theorem devWalk_mem_src {cutoff : Int} {sb : List String} :
    ∀ {l : Catalog} {seen : List String} {u : String},
      u ∈ devWalk cutoff sb l seen → ∃ ts, (u, ts) ∈ l := by
  intro l
  induction l with
  | nil => intro seen u h; simp [devWalk] at h
  | cons p rest ih =>
    obtain ⟨v, ts⟩ := p
    intro seen u h
    rw [devWalk] at h
    by_cases hlt : ts < cutoff
    · rw [if_pos hlt] at h
      by_cases hk : engineBase v ∉ sb ∧ engineBase v ∉ seen
      · rw [if_pos hk] at h
        rcases List.mem_cons.1 h with h | h
        · exact ⟨ts, by simp [h]⟩
        · rcases ih h with ⟨t', ht'⟩
          exact ⟨t', List.mem_cons_of_mem _ ht'⟩
      · rw [if_neg hk] at h
        rcases ih h with ⟨t', ht'⟩
        exact ⟨t', List.mem_cons_of_mem _ ht'⟩
    · rw [if_neg hlt] at h
      rcases List.mem_cons.1 h with h | h
      · exact ⟨ts, by simp [h]⟩
      · rcases ih h with ⟨t', ht'⟩
        exact ⟨t', List.mem_cons_of_mem _ ht'⟩

theorem devWalk_recent_mem {cutoff : Int} {sb : List String} :
    ∀ {l : Catalog} {seen : List String} {u : String} {ts : Int},
      (u, ts) ∈ l → ¬ ts < cutoff → u ∈ devWalk cutoff sb l seen := by
  intro l
  induction l with
  | nil => intro seen u ts h; simp at h
  | cons p rest ih =>
    obtain ⟨v, t⟩ := p
    intro seen u ts h hrec
    rw [devWalk]
    rcases List.mem_cons.1 h with h | h
    · rw [Prod.mk.injEq] at h
      rw [h.2] at hrec
      rw [if_neg hrec, h.1]
      exact List.mem_cons_self _ _
    · by_cases hlt : t < cutoff
      · rw [if_pos hlt]
        by_cases hk : engineBase v ∉ sb ∧ engineBase v ∉ seen
        · rw [if_pos hk]
          exact List.mem_cons_of_mem _ (ih h hrec)
        · rw [if_neg hk]
          exact ih h hrec
      · rw [if_neg hlt]
        exact List.mem_cons_of_mem _ (ih h hrec)

theorem devWalk_kept_cases {cutoff : Int} {sb : List String} :
    ∀ {l : Catalog} {seen : List String} {u : String},
      u ∈ devWalk cutoff sb l seen →
      ∃ ts, (u, ts) ∈ l ∧ (¬ ts < cutoff ∨ engineBase u ∉ sb) := by
  intro l
  induction l with
  | nil => intro seen u h; simp [devWalk] at h
  | cons p rest ih =>
    obtain ⟨v, t⟩ := p
    intro seen u h
    rw [devWalk] at h
    by_cases hlt : t < cutoff
    · rw [if_pos hlt] at h
      by_cases hk : engineBase v ∉ sb ∧ engineBase v ∉ seen
      · rw [if_pos hk] at h
        rcases List.mem_cons.1 h with h | h
        · subst h
          exact ⟨t, List.mem_cons_self _ _, Or.inr hk.1⟩
        · rcases ih h with ⟨t', ht', hc⟩
          exact ⟨t', List.mem_cons_of_mem _ ht', hc⟩
      · rw [if_neg hk] at h
        rcases ih h with ⟨t', ht', hc⟩
        exact ⟨t', List.mem_cons_of_mem _ ht', hc⟩
    · rw [if_neg hlt] at h
      rcases List.mem_cons.1 h with h | h
      · subst h
        exact ⟨t, List.mem_cons_self _ _, Or.inl hlt⟩
      · rcases ih h with ⟨t', ht', hc⟩
        exact ⟨t', List.mem_cons_of_mem _ ht', hc⟩

/-- A kept version all of whose bindings in the remaining list are old
has a base that was not yet seen. -/
theorem devWalk_old_kept_notin_seen {cutoff : Int} {sb : List String} :
    ∀ {l : Catalog} {seen : List String} {u : String},
      u ∈ devWalk cutoff sb l seen →
      (∀ ts, (u, ts) ∈ l → ts < cutoff) →
      engineBase u ∉ seen := by
  intro l
  induction l with
  | nil => intro seen u h; simp [devWalk] at h
  | cons p rest ih =>
    obtain ⟨v, t⟩ := p
    intro seen u h hold
    have holdr : ∀ ts, (u, ts) ∈ rest → ts < cutoff :=
      fun ts hts => hold ts (List.mem_cons_of_mem _ hts)
    rw [devWalk] at h
    by_cases hlt : t < cutoff
    · rw [if_pos hlt] at h
      by_cases hk : engineBase v ∉ sb ∧ engineBase v ∉ seen
      · rw [if_pos hk] at h
        rcases List.mem_cons.1 h with h | h
        · subst h; exact hk.2
        · intro hc
          exact (ih h holdr) (List.mem_cons_of_mem _ hc)
      · rw [if_neg hk] at h
        exact ih h holdr
    · rw [if_neg hlt] at h
      rcases List.mem_cons.1 h with h | h
      · subst h
        exact absurd (hold t (List.mem_cons_self _ _)) hlt
      · intro hc
        exact (ih h holdr) (List.mem_cons_of_mem _ hc)

/-- At most one old version per base survives the walk. -/
theorem devWalk_old_unique {cutoff : Int} {sb : List String} :
    ∀ {l : Catalog} {seen : List String} {u w : String},
      u ∈ devWalk cutoff sb l seen → w ∈ devWalk cutoff sb l seen →
      (∀ ts, (u, ts) ∈ l → ts < cutoff) →
      (∀ ts, (w, ts) ∈ l → ts < cutoff) →
      engineBase u = engineBase w → u = w := by
  intro l
  induction l with
  | nil => intro seen u w h; simp [devWalk] at h
  | cons p rest ih =>
    obtain ⟨v, t⟩ := p
    intro seen u w hu hw holdu holdw hb
    have holdur : ∀ ts, (u, ts) ∈ rest → ts < cutoff :=
      fun ts hts => holdu ts (List.mem_cons_of_mem _ hts)
    have holdwr : ∀ ts, (w, ts) ∈ rest → ts < cutoff :=
      fun ts hts => holdw ts (List.mem_cons_of_mem _ hts)
    rw [devWalk] at hu hw
    by_cases hlt : t < cutoff
    · rw [if_pos hlt] at hu hw
      by_cases hk : engineBase v ∉ sb ∧ engineBase v ∉ seen
      · rw [if_pos hk] at hu hw
        rcases List.mem_cons.1 hu with hu | hu <;> rcases List.mem_cons.1 hw with hw | hw
        · rw [hu, hw]
        · subst hu
          exfalso
          apply devWalk_old_kept_notin_seen hw holdwr
          rw [← hb]
          exact List.mem_cons_self _ _
        · subst hw
          exfalso
          apply devWalk_old_kept_notin_seen hu holdur
          rw [hb]
          exact List.mem_cons_self _ _
        · exact ih hu hw holdur holdwr hb
      · rw [if_neg hk] at hu hw
        exact ih hu hw holdur holdwr hb
    · rw [if_neg hlt] at hu hw
      rcases List.mem_cons.1 hu with hu | hu <;> rcases List.mem_cons.1 hw with hw | hw
      · rw [hu, hw]
      · subst hu
        exact absurd (holdu t (List.mem_cons_self _ _)) hlt
      · subst hw
        exact absurd (holdw t (List.mem_cons_self _ _)) hlt
      · exact ih hu hw holdur holdwr hb

/-- A version kept by the walk although it is old cannot coexist with a
recent dev binding of the same base: the recent one is processed first
and marks the base as seen. -/
theorem devWalk_no_recent_same_base {cutoff : Int} {sb : List String} :
    ∀ {l : Catalog}, List.Sorted tsGE l → (keysOf l).Nodup →
      ∀ {seen : List String} {u : String} {tu : Int} {w : String} {tw : Int},
        u ∈ devWalk cutoff sb l seen → (u, tu) ∈ l → tu < cutoff →
        (w, tw) ∈ l → ¬ tw < cutoff → engineBase w = engineBase u → False := by
  intro l
  induction l with
  | nil => intro _ _ seen u tu w tw hu; simp [devWalk] at hu
  | cons p rest ih =>
    obtain ⟨x, t⟩ := p
    intro hsort hnd seen u tu w tw hu hmu htu hmw htw hb
    have hsr : List.Sorted tsGE rest := (List.sorted_cons.1 hsort).2
    have hhead : ∀ q ∈ rest, tsGE (x, t) q := (List.sorted_cons.1 hsort).1
    rw [keysOf, List.map_cons, List.nodup_cons] at hnd
    have hndr : (keysOf rest).Nodup := hnd.2
    have hxnotr : x ∉ keysOf rest := hnd.1
    rw [devWalk] at hu
    by_cases hlt : t < cutoff
    · rw [if_pos hlt] at hu
      rcases List.mem_cons.1 hmw with hw | hw
      · rw [Prod.mk.injEq] at hw
        rw [hw.2] at htw
        exact htw hlt
      · rcases List.mem_cons.1 hmu with hu' | hu'
        · rw [Prod.mk.injEq] at hu'
          have h2 : tw ≤ t := hhead (w, tw) hw
          apply htw
          calc tw ≤ t := h2
          _ = tu := hu'.2.symm
          _ < cutoff := htu
        · by_cases hk : engineBase x ∉ sb ∧ engineBase x ∉ seen
          · rw [if_pos hk] at hu
            rcases List.mem_cons.1 hu with hux | hurest
            · subst hux
              exact hxnotr (mem_keysOf.2 ⟨tu, hu'⟩)
            · exact ih hsr hndr hurest hu' htu hw htw hb
          · rw [if_neg hk] at hu
            exact ih hsr hndr hu hu' htu hw htw hb
    · rw [if_neg hlt] at hu
      rcases List.mem_cons.1 hu with hux | hurest
      · subst hux
        rcases List.mem_cons.1 hmu with hu' | hu'
        · rw [Prod.mk.injEq] at hu'
          rw [hu'.2] at htu
          exact hlt htu
        · exact hxnotr (mem_keysOf.2 ⟨tu, hu'⟩)
      · rcases List.mem_cons.1 hmu with hu' | hu'
        · rw [Prod.mk.injEq] at hu'
          rw [hu'.2] at htu
          exact hlt htu
        · rcases List.mem_cons.1 hmw with hw | hw
          · rw [Prod.mk.injEq] at hw
            have hallold : ∀ ts, (u, ts) ∈ rest → ts < cutoff := by
              intro ts hts
              rw [keys_pin hndr hts hu']
              exact htu
            apply devWalk_old_kept_notin_seen hurest hallold
            have hbe : engineBase u = engineBase x := by rw [← hb, hw.1]
            rw [hbe]
            exact List.mem_cons_self _ _
          · exact ih hsr hndr hurest hu' htu hw htw hb

/-- Among the old dev bindings of a base with no stable version, the one
the walk keeps carries the maximal timestamp. -/
theorem devWalk_max_ts {cutoff : Int} {sb : List String} :
    ∀ {l : Catalog}, List.Sorted tsGE l → (keysOf l).Nodup →
      ∀ {seen : List String} {u : String} {tu : Int} {w : String} {tw : Int},
        u ∈ devWalk cutoff sb l seen → (u, tu) ∈ l → tu < cutoff →
        engineBase u ∉ sb →
        (w, tw) ∈ l → tw < cutoff → engineBase w = engineBase u → tw ≤ tu := by
  intro l
  induction l with
  | nil => intro _ _ seen u tu w tw hu; simp [devWalk] at hu
  | cons p rest ih =>
    obtain ⟨x, t⟩ := p
    intro hsort hnd seen u tu w tw hu hmu htu husb hmw htw hb
    have hsr : List.Sorted tsGE rest := (List.sorted_cons.1 hsort).2
    have hhead : ∀ q ∈ rest, tsGE (x, t) q := (List.sorted_cons.1 hsort).1
    rw [keysOf, List.map_cons, List.nodup_cons] at hnd
    have hndr : (keysOf rest).Nodup := hnd.2
    have hxnotr : x ∉ keysOf rest := hnd.1
    have humem : ∀ hur : u ∈ devWalk cutoff sb rest (engineBase x :: seen) ∨
        u ∈ devWalk cutoff sb rest seen, (u, tu) ∈ rest := by
      intro hur
      rcases List.mem_cons.1 hmu with hu' | hu'
      · rw [Prod.mk.injEq] at hu'
        exfalso
        apply hxnotr
        rcases hur with hur | hur <;>
          rcases devWalk_mem_src hur with ⟨ts, hts⟩ <;>
          exact hu'.1 ▸ mem_keysOf.2 ⟨ts, hts⟩
      · exact hu'
    have hallold : (u, tu) ∈ rest → ∀ ts, (u, ts) ∈ rest → ts < cutoff := by
      intro hur ts hts
      rw [keys_pin hndr hts hur]
      exact htu
    rw [devWalk] at hu
    by_cases hlt : t < cutoff
    · rw [if_pos hlt] at hu
      by_cases hk : engineBase x ∉ sb ∧ engineBase x ∉ seen
      · rw [if_pos hk] at hu
        rcases List.mem_cons.1 hu with hux | hurest
        · subst hux
          have htut : tu = t := by
            rcases List.mem_cons.1 hmu with hu' | hu'
            · exact (Prod.mk.injEq _ _ _ _ ▸ hu').2
            · exact absurd (mem_keysOf.2 ⟨tu, hu'⟩) hxnotr
          rcases List.mem_cons.1 hmw with hw | hw
          · rw [Prod.mk.injEq] at hw
            rw [hw.2, htut]
          · have h2 : tw ≤ t := hhead (w, tw) hw
            rw [htut]
            exact h2
        · have hur : (u, tu) ∈ rest := humem (Or.inl hurest)
          rcases List.mem_cons.1 hmw with hw | hw
          · rw [Prod.mk.injEq] at hw
            exfalso
            apply devWalk_old_kept_notin_seen hurest (hallold hur)
            have hbe : engineBase u = engineBase x := by rw [← hb, hw.1]
            rw [hbe]
            exact List.mem_cons_self _ _
          · exact ih hsr hndr hurest hur htu husb hw htw hb
      · rw [if_neg hk] at hu
        have hur : (u, tu) ∈ rest := humem (Or.inr hu)
        rcases List.mem_cons.1 hmw with hw | hw
        · rw [Prod.mk.injEq] at hw
          exfalso
          have hxbase : engineBase x = engineBase u := by rw [← hw.1]; exact hb
          rcases not_and_or.1 hk with hksb | hkseen
          · rw [not_not] at hksb
            rw [hxbase] at hksb
            exact husb hksb
          · rw [not_not] at hkseen
            apply devWalk_old_kept_notin_seen hu (hallold hur)
            rw [← hxbase]
            exact hkseen
        · exact ih hsr hndr hu hur htu husb hw htw hb
    · rw [if_neg hlt] at hu
      rcases List.mem_cons.1 hu with hux | hurest
      · subst hux
        have htut : tu = t := by
          rcases List.mem_cons.1 hmu with hu' | hu'
          · exact (Prod.mk.injEq _ _ _ _ ▸ hu').2
          · exact absurd (mem_keysOf.2 ⟨tu, hu'⟩) hxnotr
        rw [htut] at htu
        exact absurd htu hlt
      · have hur : (u, tu) ∈ rest := humem (Or.inl hurest)
        rcases List.mem_cons.1 hmw with hw | hw
        · rw [Prod.mk.injEq] at hw
          exfalso
          apply devWalk_old_kept_notin_seen hurest (hallold hur)
          have hbe : engineBase u = engineBase x := by rw [← hb, hw.1]
          rw [hbe]
          exact List.mem_cons_self _ _
        · exact ih hsr hndr hurest hur htu husb hw htw hb

/-- An old binding whose base no other element of the list carries, not
in `stable_bases` and not yet seen, is kept by the walk. -/
theorem devWalk_old_kept_mem {cutoff : Int} {sb : List String} :
    ∀ {l : Catalog} {seen : List String} {u : String} {tu : Int},
      (u, tu) ∈ l → tu < cutoff → engineBase u ∉ sb → engineBase u ∉ seen →
      (∀ q ∈ l, engineBase q.1 = engineBase u → q.1 = u) →
      u ∈ devWalk cutoff sb l seen := by
  intro l
  induction l with
  | nil => intro seen u tu h; simp at h
  | cons p rest ih =>
    obtain ⟨x, t⟩ := p
    intro seen u tu hmu htu husb huseen hshare
    rw [devWalk]
    by_cases hbx : engineBase x = engineBase u
    · have hxu : x = u := hshare (x, t) (List.mem_cons_self _ _) hbx
      subst hxu
      by_cases hlt : t < cutoff
      · rw [if_pos hlt, if_pos (by rw [hbx]; exact ⟨husb, huseen⟩)]
        exact List.mem_cons_self _ _
      · rw [if_neg hlt]
        exact List.mem_cons_self _ _
    · have hur : (u, tu) ∈ rest := by
        rcases List.mem_cons.1 hmu with hu' | hu'
        · rw [Prod.mk.injEq] at hu'
          exact absurd (by rw [hu'.1]) hbx
        · exact hu'
      have hsharer : ∀ q ∈ rest, engineBase q.1 = engineBase u → q.1 = u :=
        fun q hq => hshare q (List.mem_cons_of_mem _ hq)
      by_cases hlt : t < cutoff
      · by_cases hk : engineBase x ∉ sb ∧ engineBase x ∉ seen
        · rw [if_pos hlt, if_pos hk]
          refine List.mem_cons_of_mem _ (ih hur htu husb ?_ hsharer)
          intro hc
          rcases List.mem_cons.1 hc with hc | hc
          · exact hbx hc.symm
          · exact huseen hc
        · rw [if_pos hlt, if_neg hk]
          exact ih hur htu husb huseen hsharer
      · rw [if_neg hlt]
        refine List.mem_cons_of_mem _ (ih hur htu husb ?_ hsharer)
        intro hc
        rcases List.mem_cons.1 hc with hc | hc
        · exact hbx hc.symm
        · exact huseen hc

/-! ### The keep set -/

theorem keep_of_stable {cat : Catalog} {cutoff : Int} {v : String} {ts : Int}
    (h : (v, ts) ∈ cat) (hd : isDevStr v = false) :
    v ∈ get_versions_to_keep cat cutoff :=
  List.mem_append_left _ (mem_stableVersions.2 ⟨ts, h, hd⟩)

theorem keep_mem_keys {cat : Catalog} {cutoff : Int} {v : String}
    (h : v ∈ get_versions_to_keep cat cutoff) : v ∈ keysOf cat := by
  rcases List.mem_append.1 h with h | h
  · rcases mem_stableVersions.1 h with ⟨ts, hc, _⟩
    exact mem_keysOf.2 ⟨ts, hc⟩
  · rcases devWalk_mem_src h with ⟨ts, hts⟩
    exact mem_keysOf.2 ⟨ts, (mem_devSorted.1 hts).1⟩

theorem dev_keep_iff_walk {cat : Catalog} {cutoff : Int} {v : String}
    (hd : isDevStr v = true) :
    v ∈ get_versions_to_keep cat cutoff ↔
      v ∈ devWalk cutoff (stableBases cat) (devSorted cat) [] := by
  constructor
  · intro h
    rcases List.mem_append.1 h with h | h
    · rcases mem_stableVersions.1 h with ⟨_, _, hs⟩
      rw [hd] at hs
      exact absurd hs (by simp)
    · exact h
  · intro h
    exact List.mem_append_right _ h

theorem mem_stableBases {cat : Catalog} {b : String} :
    b ∈ stableBases cat ↔
      ∃ v ts, (v, ts) ∈ cat ∧ isDevStr v = false ∧ engineBase v = b := by
  constructor
  · intro h
    rcases List.mem_map.1 h with ⟨v, hv, he⟩
    rcases mem_stableVersions.1 hv with ⟨ts, hc, hd⟩
    exact ⟨v, ts, hc, hd, he⟩
  · rintro ⟨v, ts, hc, hd, he⟩
    exact List.mem_map.2 ⟨v, mem_stableVersions.2 ⟨ts, hc, hd⟩, he⟩

/-! ### Claim theorems -/

/-- C3. Every entry of the catalog whose version string carries no dev
marker (a Stable entry) is in the keep set computed by
`get_versions_to_keep`, whatever its timestamp and whatever else the
catalog holds. -/
theorem c3_stable_always_kept (cat : Catalog) (cutoff : Int) (v : String) (ts : Int)
    (hmem : (v, ts) ∈ cat) (hstable : isDevStr v = false) :
    v ∈ get_versions_to_keep cat cutoff :=
  keep_of_stable hmem hstable

/-- Witness for C3: the stable version of `catOneStable` is kept. -/
theorem c3_stable_always_kept_witness :
    (("1.2.3", (0 : Int)) ∈ catOneStable ∧ isDevStr ("1.2.3") = false) ∧
      ("1.2.3") ∈ get_versions_to_keep catOneStable 50 :=
  ⟨⟨by decide, by decide⟩,
    c3_stable_always_kept catOneStable 50 ("1.2.3") 0 (by decide) (by decide)⟩

/-- C6. The keep set is a subset of the catalog's keys, and the empty
catalog yields the empty keep set. -/
theorem c6_keep_subset_keys (cat : Catalog) (cutoff : Int) :
    (∀ v ∈ get_versions_to_keep cat cutoff, v ∈ keysOf cat) ∧
      get_versions_to_keep [] cutoff = [] :=
  ⟨fun _ hv => keep_mem_keys hv, rfl⟩

/-- Witness for C6 at a concrete catalog. -/
theorem c6_keep_subset_keys_witness :
    (∀ v ∈ get_versions_to_keep catMixed 50, v ∈ keysOf catMixed) ∧
      get_versions_to_keep [] 50 = [] :=
  c6_keep_subset_keys catMixed 50

/-- C2. When a stable entry of base `B` exists, no dev entry of base `B`
older than the cutoff is in the keep set. -/
theorem c2_stable_base_prunes_old_dev (cat : Catalog) (cutoff : Int) (B : String)
    (s d : String) (ts td : Int)
    (hnd : (keysOf cat).Nodup)
    (hs : (s, ts) ∈ cat) (hsd : isDevStr s = false) (hsb : engineBase s = B)
    (hd : (d, td) ∈ cat) (hdd : isDevStr d = true) (hdold : td < cutoff)
    (hdb : engineBase d = B) :
    d ∉ get_versions_to_keep cat cutoff := by
  intro hk
  have hw : d ∈ devWalk cutoff (stableBases cat) (devSorted cat) [] :=
    (dev_keep_iff_walk hdd).1 hk
  rcases devWalk_kept_cases hw with ⟨t', ht', hc⟩
  have hcat : (d, t') ∈ cat := (mem_devSorted.1 ht').1
  have ht'd : t' = td := keys_pin hnd hcat hd
  rcases hc with hrec | hnsb
  · rw [ht'd] at hrec
    exact hrec hdold
  · apply hnsb
    rw [hdb, ← hsb]
    exact mem_stableBases.2 ⟨s, ts, hs, hsd, rfl⟩

/-- Witness for C2: with a stable `1.2.3` in the catalog, the old dev
`1.2.3-rc1` is pruned. -/
theorem c2_stable_base_prunes_old_dev_witness :
    ((keysOf catStableOldDev).Nodup ∧
      ("1.2.3", (100 : Int)) ∈ catStableOldDev ∧
      ("1.2.3-rc1", (0 : Int)) ∈ catStableOldDev ∧ (0 : Int) < 50) ∧
      ("1.2.3-rc1") ∉ get_versions_to_keep catStableOldDev 50 :=
  ⟨⟨by decide, by decide, by decide, by decide⟩,
    c2_stable_base_prunes_old_dev catStableOldDev 50 ("1.2.3")
      ("1.2.3") ("1.2.3-rc1") 100 0 (by decide) (by decide) (by decide)
      (by decide) (by decide) (by decide) (by decide) (by decide)⟩

/-- C1. For a base with no stable entry: (1) at most one dev entry of
that base older than the cutoff is kept; (2) when no dev entry of the
base is recent, any kept old dev entry of the base carries the maximal
timestamp among the old dev entries of the base. -/
theorem c1_old_dev_retention (cat : Catalog) (cutoff : Int) (B : String)
    (hnd : (keysOf cat).Nodup)
    (hnostable : ∀ p ∈ cat, isDevStr p.1 = false → engineBase p.1 ≠ B) :
    (∀ u tu w tw, (u, tu) ∈ cat → (w, tw) ∈ cat →
      isDevStr u = true → isDevStr w = true →
      tu < cutoff → tw < cutoff →
      engineBase u = B → engineBase w = B →
      u ∈ get_versions_to_keep cat cutoff →
      w ∈ get_versions_to_keep cat cutoff → u = w)
    ∧ ((∀ p ∈ cat, isDevStr p.1 = true → engineBase p.1 = B → p.2 < cutoff) →
       ∀ u tu, (u, tu) ∈ cat → isDevStr u = true → tu < cutoff →
         engineBase u = B → u ∈ get_versions_to_keep cat cutoff →
       ∀ w tw, (w, tw) ∈ cat → isDevStr w = true → tw < cutoff →
         engineBase w = B → tw ≤ tu) := by
  have hBnotsb : B ∉ stableBases cat := by
    intro hB
    rcases mem_stableBases.1 hB with ⟨s, ts, hc, hsd, he⟩
    exact hnostable (s, ts) hc hsd he
  constructor
  · intro u tu w tw hmu hmw hdu hdw hou how hbu hbw hku hkw
    have hwu : u ∈ devWalk cutoff (stableBases cat) (devSorted cat) [] :=
      (dev_keep_iff_walk hdu).1 hku
    have hww : w ∈ devWalk cutoff (stableBases cat) (devSorted cat) [] :=
      (dev_keep_iff_walk hdw).1 hkw
    have hallu : ∀ ts, (u, ts) ∈ devSorted cat → ts < cutoff := by
      intro ts hts
      rw [keys_pin hnd (mem_devSorted.1 hts).1 hmu]
      exact hou
    have hallw : ∀ ts, (w, ts) ∈ devSorted cat → ts < cutoff := by
      intro ts hts
      rw [keys_pin hnd (mem_devSorted.1 hts).1 hmw]
      exact how
    exact devWalk_old_unique hwu hww hallu hallw (by rw [hbu, hbw])
  · intro _ u tu hmu hdu hou hbu hku w tw hmw hdw how hbw
    have hwu : u ∈ devWalk cutoff (stableBases cat) (devSorted cat) [] :=
      (dev_keep_iff_walk hdu).1 hku
    have husb : engineBase u ∉ stableBases cat := by
      rw [hbu]
      exact hBnotsb
    exact devWalk_max_ts (sorted_devSorted cat) (nodup_keys_devSorted hnd)
      hwu (mem_devSorted.2 ⟨hmu, hdu⟩) hou husb
      (mem_devSorted.2 ⟨hmw, hdw⟩) how (by rw [hbw, hbu])

/-- Witness for C1: in `catTwoOldDev` the kept old dev is unique and has
the larger timestamp. -/
theorem c1_old_dev_retention_witness :
    ((keysOf catTwoOldDev).Nodup ∧
      ("1.0.0-rc1", (10 : Int)) ∈ catTwoOldDev ∧
      ("1.0.0-rc2", (0 : Int)) ∈ catTwoOldDev ∧
      ("1.0.0-rc1") ∈ get_versions_to_keep catTwoOldDev 50) ∧
      (0 : Int) ≤ 10 :=
  ⟨⟨by decide, by decide, by decide, by decide⟩,
    (c1_old_dev_retention catTwoOldDev 50 ("1.0.0") (by decide) (by decide)).2
      (by decide) ("1.0.0-rc1") 10 (by decide) (by decide) (by decide)
      (by decide) (by decide) ("1.0.0-rc2") 0 (by decide) (by decide)
      (by decide) (by decide)⟩

theorem stableBases_filter_subset {cat : Catalog} {p : String × Int → Bool}
    {b : String} (h : b ∈ stableBases (cat.filter p)) : b ∈ stableBases cat := by
  rcases mem_stableBases.1 h with ⟨s, ts, hc, hsd, he⟩
  exact mem_stableBases.2 ⟨s, ts, (List.mem_filter.1 hc).1, hsd, he⟩

/-- C4. `get_versions_to_keep` is idempotent: restricting the catalog to
the kept versions and running the policy again returns the same keep
set. -/
theorem c4_keep_idempotent (cat : Catalog) (cutoff : Int)
    (hnd : (keysOf cat).Nodup) :
    (get_versions_to_keep
        (cat.filter (fun p => decide (p.1 ∈ get_versions_to_keep cat cutoff)))
        cutoff).toFinset
      = (get_versions_to_keep cat cutoff).toFinset := by
  apply Finset.ext
  intro v
  simp only [List.mem_toFinset]
  constructor
  · intro h
    rcases mem_keysOf.1 (keep_mem_keys h) with ⟨ts, hts⟩
    exact of_decide_eq_true (List.mem_filter.1 hts).2
  · intro h
    rcases List.mem_append.1 h with hstab | hwalk
    · rcases mem_stableVersions.1 hstab with ⟨ts, hc, hsd⟩
      exact keep_of_stable (List.mem_filter.2 ⟨hc, decide_eq_true h⟩) hsd
    · rcases devWalk_kept_cases hwalk with ⟨ts, hts, hcase⟩
      have hdev : isDevStr v = true := (mem_devSorted.1 hts).2
      have hcat : (v, ts) ∈ cat := (mem_devSorted.1 hts).1
      have hcat' : (v, ts) ∈
          cat.filter (fun p => decide (p.1 ∈ get_versions_to_keep cat cutoff)) :=
        List.mem_filter.2 ⟨hcat, decide_eq_true h⟩
      have hts' : (v, ts) ∈ devSorted
          (cat.filter (fun p => decide (p.1 ∈ get_versions_to_keep cat cutoff))) :=
        mem_devSorted.2 ⟨hcat', hdev⟩
      apply (dev_keep_iff_walk hdev).2
      by_cases hrec : ts < cutoff
      · have hnsb : engineBase v ∉ stableBases cat := by
          rcases hcase with hr | hn
          · exact absurd hrec hr
          · exact hn
        apply devWalk_old_kept_mem hts' hrec
          (fun hc => hnsb (stableBases_filter_subset hc)) (List.not_mem_nil _)
        rintro ⟨w, tw⟩ hq hbq
        have hqf := List.mem_filter.1 (mem_devSorted.1 hq).1
        have hqdev : isDevStr w = true := (mem_devSorted.1 hq).2
        have hqK : w ∈ get_versions_to_keep cat cutoff :=
          of_decide_eq_true hqf.2
        have hqcat : (w, tw) ∈ cat := hqf.1
        by_cases hwold : tw < cutoff
        · have hwwalk : w ∈ devWalk cutoff (stableBases cat) (devSorted cat) [] :=
            (dev_keep_iff_walk hqdev).1 hqK
          have hallw : ∀ t', (w, t') ∈ devSorted cat → t' < cutoff := by
            intro t' ht'
            rw [keys_pin hnd (mem_devSorted.1 ht').1 hqcat]
            exact hwold
          have hallv : ∀ t', (v, t') ∈ devSorted cat → t' < cutoff := by
            intro t' ht'
            rw [keys_pin hnd (mem_devSorted.1 ht').1 hcat]
            exact hrec
          exact devWalk_old_unique hwwalk hwalk hallw hallv hbq
        · exact absurd
            (devWalk_no_recent_same_base (sorted_devSorted cat)
              (nodup_keys_devSorted hnd) hwalk (mem_devSorted.2 ⟨hcat, hdev⟩)
              hrec (mem_devSorted.2 ⟨hqcat, hqdev⟩) hwold hbq)
            not_false
      · exact devWalk_recent_mem hts' hrec

/-- Witness for C4 at a catalog exercising all three walk branches. -/
theorem c4_keep_idempotent_witness :
    (keysOf catThree).Nodup ∧
      (get_versions_to_keep
          (catThree.filter
            (fun p => decide (p.1 ∈ get_versions_to_keep catThree 50))) 50).toFinset
        = (get_versions_to_keep catThree 50).toFinset :=
  ⟨by decide, c4_keep_idempotent catThree 50 (by decide)⟩

/-! ### Dictionary construction lemmas -/

theorem mem_keys_dictInsert_of :
    ∀ {m : Catalog} {k : String} {t : Int} {v : String},
      (v ∈ keysOf m ∨ v = k) → v ∈ keysOf (dictInsert m k t) := by
  intro m
  induction m with
  | nil =>
    intro k t v h
    rcases h with h | h
    · simp [keysOf] at h
    · simp [dictInsert, keysOf, h]
  | cons p m ih =>
    obtain ⟨k', t'⟩ := p
    intro k t v h
    rw [dictInsert]
    by_cases hk : k' = k
    · rw [if_pos hk]
      rcases h with h | h
      · exact h
      · rw [keysOf, List.map_cons]
        rw [h, ← hk]
        exact List.mem_cons_self _ _
    · rw [if_neg hk]
      rw [keysOf, List.map_cons]
      rcases h with h | h
      · rcases List.mem_cons.1 h with h | h
        · rw [h]
          exact List.mem_cons_self _ _
        · exact List.mem_cons_of_mem _ (ih (Or.inl h))
      · exact List.mem_cons_of_mem _ (ih (Or.inr h))

theorem mem_keys_foldl_dictInsert :
    ∀ (es : List Entry) (m : Catalog) (v : String),
      (v ∈ keysOf m ∨ ∃ e ∈ es, e.version = v) →
      v ∈ keysOf (es.foldl (fun m e => dictInsert m e.version e.created) m) := by
  intro es
  induction es with
  | nil =>
    intro m v h
    rcases h with h | h
    · exact h
    · rcases h with ⟨e, he, _⟩
      simp at he
  | cons e es ih =>
    intro m v h
    rw [List.foldl_cons]
    apply ih
    rcases h with h | h
    · exact Or.inl (mem_keys_dictInsert_of (Or.inl h))
    · rcases h with ⟨e', he', hv⟩
      rcases List.mem_cons.1 he' with he' | he'
      · subst he'
        exact Or.inl (mem_keys_dictInsert_of (Or.inr hv.symm))
      · exact Or.inr ⟨e', he', hv⟩

theorem mem_keys_catalogOf {es : List Entry} {e : Entry} (hes : e ∈ es) :
    ∃ t, (e.version, t) ∈ catalogOf es :=
  mem_keysOf.1 (mem_keys_foldl_dictInsert es [] e.version (Or.inr ⟨e, hes, rfl⟩))

/-! ### Remaining claims -/

/-- C7. The versions `cleanup_old_versions` removes for a chart are
exactly the chart's versions outside the keep set, and the versions
`sync_releases` marks for addition are exactly the kept feed versions
absent from the index. -/
theorem c7_reconciliation_exact (es : List Entry) (cutoff : Int)
    (feed : Catalog) (existing : List String) (v : String) :
    (v ∈ removedVersions es cutoff ↔
      (∃ e ∈ es, e.version = v) ∧ v ∉ cleanupKeep es cutoff)
    ∧ (v ∈ syncMissing feed existing cutoff ↔
      v ∈ keysOf feed ∧
      v ∈ get_versions_to_keep (syncCombined feed existing cutoff) cutoff ∧
      v ∉ existing) := by
  constructor
  · constructor
    · intro h
      rcases List.mem_map.1 h with ⟨e, hf, hv⟩
      rcases List.mem_filter.1 hf with ⟨hes, hnk⟩
      have hnk' : e ∉ keptEntries es cutoff := of_decide_eq_true hnk
      refine ⟨⟨e, hes, hv⟩, ?_⟩
      intro hkeep
      apply hnk'
      apply List.mem_filter.2
      refine ⟨hes, decide_eq_true ?_⟩
      rw [hv]
      exact hkeep
    · rintro ⟨⟨e, hes, hv⟩, hnk⟩
      apply List.mem_map.2
      refine ⟨e, List.mem_filter.2 ⟨hes, decide_eq_true ?_⟩, hv⟩
      intro hkept
      apply hnk
      rw [← hv]
      exact of_decide_eq_true (List.mem_filter.1 hkept).2
  · constructor
    · intro h
      rcases List.mem_filter.1 h with ⟨hkeep, hcond⟩
      rcases of_decide_eq_true hcond with ⟨hfeed, hex⟩
      exact ⟨hfeed, hkeep, hex⟩
    · rintro ⟨hfeed, hkeep, hex⟩
      exact List.mem_filter.2 ⟨hkeep, decide_eq_true ⟨hfeed, hex⟩⟩

/-- C5, counterexample. `entryHiddenDev` carries its only dev marker in
`appVersion`: `is_dev_version` calls it a dev version, yet the keep-set
computation, which scans only the version string, classifies it stable
and keeps it although it is old and its base has a stable entry — under
the claimed Dev rules it would have been pruned. -/
theorem c5_counterexample_hidden_marker :
    is_dev_version entryHiddenDev = true ∧
    isDevStr entryHiddenDev.version = false ∧
    entryHiddenDev.created < 100 ∧
    engineBase entryHiddenDev.version = engineBase entryStable.version ∧
    is_dev_version entryStable = false ∧
    entryHiddenDev.version ∈ cleanupKeep entriesHidden 100 := by
  decide

/-- C5, amended: the Retention Policy Engine classifies an entry by its
primary version string alone; an entry with no marker there is treated
as Stable and kept unconditionally, even when a marker occurs in its
`appVersion` field. -/
theorem c5_amended_version_only_class (es : List Entry) (cutoff : Int)
    (e : Entry) (hes : e ∈ es) (hstable : isDevStr e.version = false) :
    e.version ∈ cleanupKeep es cutoff := by
  rcases mem_keys_catalogOf hes with ⟨t, ht⟩
  exact keep_of_stable ht hstable

/-- Witness for the amended C5. -/
theorem c5_amended_version_only_class_witness :
    (entryHiddenDev ∈ entriesHidden ∧ isDevStr entryHiddenDev.version = false) ∧
      entryHiddenDev.version ∈ cleanupKeep entriesHidden 100 :=
  ⟨⟨by decide, by decide⟩,
    c5_amended_version_only_class entriesHidden 100 entryHiddenDev
      (by decide) (by decide)⟩

/-- C8, counterexample. `foo-rc1` has no three-component numeric head,
yet the engine's base for it is `foo`, not the full string, and the
distinct `foo-rc2` receives the same base; in a catalog holding both as
old dev versions only one survives, so they are treated as sharing a
base. -/
theorem c8_counterexample_dashed_stem :
    baseMatch oddVer1.data = none ∧
    engineBase oddVer1 = oddStem ∧ oddStem ≠ oddVer1 ∧
    engineBase oddVer2 = oddStem ∧ oddVer1 ≠ oddVer2 ∧
    oddVer2 ∉ get_versions_to_keep catOdd 50 := by
  decide

/-- C8, amended: for a version string with no '-' and no recognizable
three-component numeric head, the engine base is the full string; and
any version whose portion before the first '-' equals that string is
given that same base, so distinct versions can share a base. -/
theorem c8_amended_engine_base (v : String)
    (hnodash : ('-') ∉ v.data) (hnum : baseMatch v.data = none) :
    engineBase v = v ∧
      ∀ w, firstDashSeg w = v → engineBase w = engineBase v := by
  have htw : ∀ l : List Char, ('-') ∉ l →
      l.takeWhile (fun c => decide (c ≠ '-')) = l := by
    intro l
    induction l with
    | nil => intro _; rfl
    | cons c cs ih =>
      intro h
      rw [List.mem_cons, not_or] at h
      have hc : decide (c ≠ '-') = true := by
        simp
        exact Ne.symm h.1
      rw [List.takeWhile_cons, hc]
      rw [ih h.2]
      rfl
  have hfs : firstDashSeg v = v := by
    rw [firstDashSeg]
    rw [htw v.data hnodash]
  have hev : engineBase v = v := by
    rw [engineBase, hfs, extract_base_version, hnum]
  refine ⟨hev, ?_⟩
  intro w hw
  rw [engineBase, hw, hev]
  rw [extract_base_version, hnum]

/-- Witness for the amended C8: `foo` is its own base and `foo-rc1`
shares it. -/
theorem c8_amended_engine_base_witness :
    (('-') ∉ oddStem.data ∧ baseMatch oddStem.data = none) ∧
      engineBase oddStem = oddStem ∧ engineBase oddVer1 = engineBase oddStem :=
  ⟨⟨by decide, by decide⟩,
    ⟨(c8_amended_engine_base oddStem (by decide) (by decide)).1,
      (c8_amended_engine_base oddStem (by decide) (by decide)).2 oddVer1
        (by decide)⟩⟩

/-- C9. Evaluation of the download bookkeeping at a failing input: with
`missingTwo` where the first version's download fails and the second
succeeds, `synced_versions.txt` receives `missing[:added]`, the FIRST
entry (which failed), not the version actually added. -/
theorem c9_synced_file_mismatch :
    syncedFileContent missingTwo okSecond = some (["2.1.0"]) ∧
    actuallyAdded missingTwo okSecond = ["2.2.0"] ∧
    addedCount missingTwo okSecond = 1 := by
  decide

/-- C10. The retention rule of `manage-fleet-charts.py` and the
per-chart rule of `remove-rcs-from-index.py` disagree on
`entriesTwoCharts`: the former keeps the old dev version of the
unreleased base `1.3.0`, the latter prunes every old dev version once
any final version exists. -/
theorem c10_rules_not_equivalent :
    ((rcKeptVersions entriesTwoCharts 50).map (fun e => e.version)).toFinset ≠
      (cleanupKeep entriesTwoCharts 50).toFinset := by
  decide

end Fleet
